import Mathlib

/-!
Verification of the managed-matmul scheduling core
(`src/backend/graph_compiler/core/src/ops/templates/managed_matmul_core.cpp`).

The development shallowly embeds the integer planning logic of the file:
the balanced work partitioner `get_balance211_length`, the divisor
enumeration `get_splits`, the cost-model search and overrides of
`get_default_config`, the validation prefix of `generate`, the thread
rotation and fusion-anchor emission of `single_thread_matmul_call`, and
the split-K reduction buffer bookkeeping.  All machine integers involved
are non-negative C `int` values, so they are modelled as `Nat` with C++
truncating division (`Nat.div`).  Fallible paths (`std::vector::at`)
are modelled with `Option`.
-/

namespace MMM

/-- `utils::divide_and_ceil(a, b)` = `(a + b - 1) / b` in C++ integer
arithmetic (managed_matmul_core.cpp line 63 and util/math_utils). -/
def ceilDiv (a b : Nat) : Nat := (a + b - 1) / b

/-- `utils::rnd_up(a, b)`: round `a` up to a multiple of `b`. -/
def rndUp (a b : Nat) : Nat := ceilDiv a b * b

/-- `get_splits(X)` (lines 55-61): all `i` in `[1, X]` with `X % i == 0`,
in increasing order. -/
def get_splits (X : Nat) : List Nat :=
  ((List.range X).map (· + 1)).filter (fun i => X % i == 0)

/-! ## balance211 (lines 67-76)

`get_balance211_length(n, team, idx, n_start, T1)` computes
`n1 = ceil(n/team)`, `n2 = n1 - 1`, `T1 = n - n2*team`, sets
`n_start = idx <= T1 ? idx*n1 : T1*n1 + (idx-T1)*n2` and returns
`idx < T1 ? n1 : n2`. -/

def balN1 (n team : Nat) : Nat := ceilDiv n team

def balN2 (n team : Nat) : Nat := balN1 n team - 1

def balT1 (n team : Nat) : Nat := n - balN2 n team * team

/-- The `n_start` output parameter of `get_balance211_length`. -/
def balStart (n team idx : Nat) : Nat :=
  if idx ≤ balT1 n team then idx * balN1 n team
  else balT1 n team * balN1 n team + (idx - balT1 n team) * balN2 n team

/-- The return value (length) of `get_balance211_length`. -/
def balLen (n team idx : Nat) : Nat :=
  if idx < balT1 n team then balN1 n team else balN2 n team

/-- The `(start, length)` pair assigned to worker `idx`. -/
def balance211 (n team idx : Nat) : Nat × Nat :=
  (balStart n team idx, balLen n team idx)

/-! ## Thread rotation (lines 304-309)

Inside a sub-block the inner M/N block index is rotated:
`m_start_idx = m_idx + m_b_idx*iim_block_ + ((m_o + tid) % m_o_end)*iim_block_`. -/

/-- The rotated inner block index `(o + tid) % c` with `c` the inner
block count (`m_o_end`/`n_o_end`). -/
def rotIdx (c tid o : Nat) : Nat := (o + tid) % c

/-- The list of absolute block indices visited by the inner loop of one
sub-block chunk that starts at block `start` and holds `len` blocks. -/
def rotChunk (start len tid : Nat) : List Nat :=
  (List.range len).map (fun o => start + rotIdx len tid o)

/-- Count of value `x` in a list of naturals. -/
def countN (l : List Nat) (x : Nat) : Nat := l.countP (fun a => a == x)

/-- Count of pair `(x, y)` in a list of pairs. -/
def countPair (l : List (Nat × Nat)) (x y : Nat) : Nat :=
  l.countP (fun p => p.1 == x && p.2 == y)


/-- Per-block anchors (lines 352-364): one anchor per `(m_b, n_b, m_o, n_o)`
at the last `k_b` iteration, at the rotated block coordinates of lines
304-309.  Each entry is the `(m, n)` block coordinate of one `iim x iin`
output block. -/
def perBlockAnchors (Mb Nb Msub Nsub tid : Nat) : List (Nat × Nat) :=
  (List.range Msub).flatMap (fun mb =>
    (List.range Nsub).flatMap (fun nb =>
      (rotChunk (balStart Mb Msub mb) (balLen Mb Msub mb) tid).flatMap
        (fun mi =>
          (rotChunk (balStart Nb Nsub nb) (balLen Nb Nsub nb) tid).map
            (fun ni => (mi, ni)))))

/-- A rectangular output region in block units: M start/length,
N start/length. -/
structure Rect where
  ms : Nat
  ml : Nat
  ns : Nat
  nl : Nat
deriving DecidableEq

/-- Whether block `(x, y)` lies inside rectangle `r`. -/
def inRect (r : Rect) (x y : Nat) : Bool :=
  decide (r.ms ≤ x) && decide (x < r.ms + r.ml) &&
    decide (r.ns ≤ y) && decide (y < r.ns + r.nl)

/-- The M-extent (in blocks) of the per-sub-block anchor emitted for a
blocked-format output.  From lines 376-389 (even case:
`M_anchor_info[1] / iim_block_ / config.M_sub_block`) and lines 412-425
(16-way case: the same base, plus `1 - i` when
`M_anchor_info[p+1] / iim_block_ % config.M_sub_block != 0`).
`ManchorB` is `M_anchor_info[p+1] / iim_block_` for the `p` selected by
the decision tree of lines 439-484, which equals the thread's M extent
in blocks, and `subBig` is the tree's `m_b < m_b_bigger_num` selector. -/
def sixteenLenBlk (ManchorB Msub : Nat) (subBig : Bool) : Nat :=
  if ManchorB % Msub = 0 then ManchorB / Msub
  else ManchorB / Msub + (if subBig then 1 else 0)

/-- The M-extent (in elements) of the per-sub-block anchor emitted for a
plain-format output, from lines 397-407: base
`M_anchor_info[p+1] / config.M_sub_block` plus `(1 - i) * iim_block_`
when the block count does not divide evenly.  `ManchorE` is
`M_anchor_info[p+1]` in elements. -/
def sixteenLenElem (ManchorE iim Msub : Nat) (subBig : Bool) : Nat :=
  if (ManchorE / iim) % Msub = 0 then ManchorE / Msub
  else ManchorE / Msub + (if subBig then iim else 0)

/-- The per-sub-block anchors emitted by one thread's loop body for a
blocked-format output: one `Rect` per `(m_b, n_b)` (lines 368-487),
whose starts are `(m_idx + m_b_idx * iim_block_) / iim_block_` relative
to the thread origin and whose lengths follow `sixteenLenBlk`. -/
def subAnchorsBlk (Mb Nb Msub Nsub : Nat) : List Rect :=
  (List.range Msub).flatMap (fun mb =>
    (List.range Nsub).map (fun nb =>
      ⟨balStart Mb Msub mb,
        sixteenLenBlk Mb Msub (decide (mb < balT1 Mb Msub)),
        balStart Nb Nsub nb,
        sixteenLenBlk Nb Nsub (decide (nb < balT1 Nb Nsub))⟩))

/-- Per-block anchors as unit rectangles (each covers exactly one
`iim x iin` block). -/
def perBlockRects (Mb Nb Msub Nsub tid : Nat) : List Rect :=
  (perBlockAnchors Mb Nb Msub Nsub tid).map (fun p => ⟨p.1, 1, p.2, 1⟩)

/-- All fusion anchors emitted during one thread's loop body of
`single_thread_matmul_call` for a blocked output: the per-block anchors
of lines 352-364 together with the per-sub-block anchors of
lines 368-487. -/
def combinedAnchorsBlk (Mb Nb Msub Nsub tid : Nat) : List Rect :=
  perBlockRects Mb Nb Msub Nsub tid ++ subAnchorsBlk Mb Nb Msub Nsub

/-- `M_blk_num` of line 545:
`(M - (M_block_size - iim_block_) * M_split_num) / iim_block_`,
written with `M = Mblocks * iim` and
`M_block_size = ceil(Mblocks / Msplit) * iim`. -/
def MblkNum (Mblocks Msplit iim : Nat) : Nat :=
  (Mblocks * iim - (ceilDiv Mblocks Msplit * iim - iim) * Msplit) / iim

/-! ## `get_default_config` (lines 78-192) -/

/-- The inputs read by `get_default_config`: runtime thread count, the
block sizes chosen by the constructor, the A dtype class, the plain
tensor dimensions and the element sizes plus the L2 cache size. -/
structure MMInputs where
  num_threads : Nat
  iim_block : Nat
  iin_block : Nat
  iik_block : Nat
  is_int8 : Bool
  plain_M : Nat
  plain_K : Nat
  plain_N : Nat
  sizeofdtypeA : Nat
  sizeofdtypeC : Nat
  L2_size : Nat
deriving DecidableEq

/-- `managed_matmul_core_config_t`. -/
structure MMCfg where
  M_split_num : Nat
  N_split_num : Nat
  M_sub_block : Nat
  N_sub_block : Nat
  K_sub_block : Nat
  im_loop_order : Nat
deriving DecidableEq

/-- `M` of lines 88-91: plain M rounded up to the M block. -/
def roundedM (a : MMInputs) : Nat := ceilDiv a.plain_M a.iim_block * a.iim_block

/-- `N` of lines 92-95. -/
def roundedN (a : MMInputs) : Nat := ceilDiv a.plain_N a.iin_block * a.iin_block

/-- `K` of lines 96-99. -/
def roundedK (a : MMInputs) : Nat := ceilDiv a.plain_K a.iik_block * a.iik_block

/-- The cost evaluated for candidate `i` (lines 108-120).  The source
computes this value entirely in C `int` arithmetic (all divisions
truncating) and only then stores it into a `float`; for every magnitude
exercised in this development the value is far below `2^24`, where the
`float` comparison agrees with the exact `Nat` comparison used here. -/
def costAt (a : MMInputs) (i : Nat) : Nat :=
  let M := roundedM a
  let N := roundedN a
  let T := a.num_threads
  let num_M_block := ceilDiv (M / a.iim_block) (T / i)
  let num_N_block := ceilDiv (N / a.iin_block) i
  let num_brgemm := num_M_block * num_N_block
  let num_core := min i (N / a.iin_block) * min (T / i) (M / a.iim_block)
  (1024 + M * i / T + N / i) * (num_brgemm + 8 * i) / num_core

/-- One iteration of the search loop: keep the first strict minimum
(`new_cost < cost`, lines 121-124); `none` stands for the initial
`FLT_MAX`. -/
def searchStep (a : MMInputs) (st : Nat × Option Nat) (i : Nat) :
    Nat × Option Nat :=
  let nc := costAt a i
  match st.2 with
  | none => (i, some nc)
  | some c => if nc < c then (i, some nc) else st

/-- The `split_n` selected by the loop of lines 107-125, scanning
`i = 1, ..., num_threads` in order. -/
def searchSplitN (a : MMInputs) : Nat :=
  (((List.range a.num_threads).map (· + 1)).foldl (searchStep a) (1, none)).1

/-- The split overrides of lines 128-154, applied to the searched pair
`(Ms0, Ns0)`.  `none` models the `std::out_of_range` exception thrown by
`get_splits(num_threads).at(1)` when that vector has fewer than two
entries. -/
def splitOverrides (a : MMInputs) (Ms0 Ns0 : Nat) : Option (Nat × Nat) :=
  let M := roundedM a
  let N := roundedN a
  let K := roundedK a
  if a.is_int8 ∧ N ≤ 512 ∧ K ≤ 512 then some (a.num_threads, 1)
  else if N ≤ 192 ∧ K ≤ 192 then some (a.num_threads, 1)
  else if 8192 ≤ K then
    if M < N then
      let possible_splits := get_splits Ms0
      if 2 < possible_splits.length ∧ N / M < 3 then
        some (Ms0 / possible_splits.getD 1 0, Ns0)
      else
        match (get_splits a.num_threads)[1]? with
        | some K_split_num => some (1, a.num_threads / K_split_num)
        | none => none
    else
      let possible_splits := get_splits Ns0
      if 2 < possible_splits.length then
        some (Ms0, Ns0 / possible_splits.getD 1 0)
      else some (Ms0, Ns0)
  else some (Ms0, Ns0)

/-- `single_M` of lines 155-157. -/
def singleM (a : MMInputs) (Msplit : Nat) : Nat :=
  ceilDiv (ceilDiv (roundedM a) a.iim_block) Msplit * a.iim_block

/-- `single_N` of lines 158-160. -/
def singleN (a : MMInputs) (Nsplit : Nat) : Nat :=
  ceilDiv (ceilDiv (roundedN a) a.iin_block) Nsplit * a.iin_block

/-- `single_K_threshold` of lines 163-165. -/
def singleKThreshold (a : MMInputs) (Ms Ns : Nat) : Nat :=
  (if singleM a Ms * singleN a Ns * a.sizeofdtypeA < a.L2_size
    then 2048 else 4096) / a.sizeofdtypeA

/-- The `(M_sub_block, N_sub_block, K_sub_block)` computation of lines
155-190.  The source computes `L2_MN` with `double` `sqrt`/`pow`
(lines 176-179); it is modelled with `Nat.sqrt`.  No theorem below
depends on the value of `L2_MN`: the sub-block counts are clamped with
`std::max(1, ...)` in both regimes. -/
def subBlocksOf (a : MMInputs) (Ms Ns : Nat) : Nat × Nat × Nat :=
  let sM := singleM a Ms
  let sN := singleN a Ns
  let sK := roundedK a
  let thr := singleKThreshold a Ms Ns
  if thr ≤ sK then
    let Ksub := ceilDiv sK thr
    let L2K := ceilDiv (ceilDiv sK a.iik_block) Ksub * a.iik_block
    let L2MN := (Nat.sqrt ((2 * a.sizeofdtypeA * L2K) ^ 2
        + 4 * a.sizeofdtypeC * a.L2_size)
      - 2 * a.sizeofdtypeA * L2K) / (2 * a.sizeofdtypeC)
    (max 1 (sM / L2MN), max 1 (sN / L2MN), Ksub)
  else
    let L2MN := a.L2_size / (2 * a.sizeofdtypeA * sK)
    (max 1 (sM / L2MN), max 1 (sN / L2MN), 1)

/-- `get_default_config` (lines 78-192): cost search, overrides, then
sub-block sizing; `im_loop_order = 0` (line 106). -/
def getDefaultConfig (a : MMInputs) : Option MMCfg :=
  let split_n := searchSplitN a
  let Ms0 := a.num_threads / split_n
  match splitOverrides a Ms0 split_n with
  | none => none
  | some (Ms, Ns) =>
    let sb := subBlocksOf a Ms Ns
    some ⟨Ms, Ns, sb.1, sb.2.1, sb.2.2, 0⟩

/-! ## The validation prefix of `generate` (lines 510-584) and the
split-K reduction bookkeeping (lines 716-816) -/

/-- The inputs of `generate` relevant to validation: thread count, block
sizes, plain dimensions, the B dtype class and the third blocking factor
of B's format (`-1` when absent). -/
structure GenInputs where
  num_threads : Nat
  iim_block : Nat
  iin_block : Nat
  iik_block : Nat
  plain_M : Nat
  plain_K : Nat
  plain_N : Nat
  B_is_bf16 : Bool
  B_is_int8 : Bool
  B_format_block2 : Int
deriving DecidableEq

/-- The failure modes of `generate`: the three `COMPILE_ASSERT`s of
lines 548-556 ("bad X_sub_block given") and the one of lines 566-570
("Wrong data format of B"). -/
inductive GenErr where
  | badMSub
  | badNSub
  | badKSub
  | badBFormat
deriving DecidableEq

/-- The loop plan produced on success: the configuration actually used
(unchanged) and `K_real_split`. -/
structure GenPlan where
  cfgUsed : MMCfg
  Kreal : Nat
deriving DecidableEq

/-- `M` of lines 524-525. -/
def genM (g : GenInputs) : Nat := rndUp g.plain_M g.iim_block

/-- `K` of lines 526-527. -/
def genK (g : GenInputs) : Nat := rndUp g.plain_K g.iik_block

/-- `N` of lines 528-529. -/
def genN (g : GenInputs) : Nat := rndUp g.plain_N g.iin_block

/-- `K_split_num = num_threads / M_split_num / N_split_num` (line 521). -/
def KsplitNum (g : GenInputs) (cfg : MMCfg) : Nat :=
  g.num_threads / cfg.M_split_num / cfg.N_split_num

/-- `M_block_size` (lines 530-531). -/
def MblockSize (g : GenInputs) (cfg : MMCfg) : Nat :=
  ceilDiv (genM g / g.iim_block) cfg.M_split_num * g.iim_block

/-- `M_ib_block_size` (line 532) after the zero fixup of line 540. -/
def MibBlockSize (g : GenInputs) (cfg : MMCfg) : Nat :=
  let v := genM g / g.iim_block / cfg.M_split_num * g.iim_block
  if v = 0 then MblockSize g cfg else v

/-- `N_block_size` (lines 533-534). -/
def NblockSize (g : GenInputs) (cfg : MMCfg) : Nat :=
  ceilDiv (genN g / g.iin_block) cfg.N_split_num * g.iin_block

/-- `N_ib_block_size` (line 535) after the zero fixup of line 541. -/
def NibBlockSize (g : GenInputs) (cfg : MMCfg) : Nat :=
  let v := genN g / g.iin_block / cfg.N_split_num * g.iin_block
  if v = 0 then NblockSize g cfg else v

/-- `K_block_size` (lines 536-537). -/
def KblockSize (g : GenInputs) (cfg : MMCfg) : Nat :=
  ceilDiv (genK g / g.iik_block) (KsplitNum g cfg) * g.iik_block

/-- `K_ib_block_size` (line 538) after the zero fixup of line 542. -/
def KibBlockSize (g : GenInputs) (cfg : MMCfg) : Nat :=
  let v := genK g / g.iik_block / KsplitNum g cfg * g.iik_block
  if v = 0 then KblockSize g cfg else v

/-- `K_real_split = min(ceil(K / iik_block), K_split_num)`
(lines 583-584), the leading dimension inserted into the temporary
reduction buffer's shape at lines 718-719. -/
def KrealSplit (g : GenInputs) (cfg : MMCfg) : Nat :=
  min (ceilDiv (genK g) g.iik_block) (KsplitNum g cfg)

/-- `dtype_block` of lines 558-565. -/
def dtypeBlock (g : GenInputs) : Nat :=
  if g.B_is_bf16 then 2 else if g.B_is_int8 then 4 else 1

/-- The eager validation performed by `generate` before anything is
emitted, in source order: the three sub-block `COMPILE_ASSERT`s of
lines 548-556, then the B-format assertion of lines 566-570.  On success
the configuration is used as supplied. -/
def generateChecks (g : GenInputs) (cfg : MMCfg) : Except GenErr GenPlan :=
  if cfg.M_sub_block ≤ MblockSize g cfg / g.iim_block ∧
      cfg.M_sub_block ≤ MibBlockSize g cfg / g.iim_block then
    if cfg.N_sub_block ≤ NblockSize g cfg / g.iin_block ∧
        cfg.N_sub_block ≤ NibBlockSize g cfg / g.iin_block then
      if cfg.K_sub_block ≤ KblockSize g cfg / g.iik_block ∧
          cfg.K_sub_block ≤ KibBlockSize g cfg / g.iik_block then
        if 1 < dtypeBlock g ∧
            ¬(g.B_format_block2 = -1 ∨ g.B_format_block2 = dtypeBlock g) then
          .error .badBFormat
        else .ok ⟨cfg, KrealSplit g cfg⟩
      else .error .badKSub
    else .error .badNSub
  else .error .badMSub

/-- The reduction of one output position in the blocked second phase
(lines 771-791): `mem_zero` the accumulator, then add the
`out_tmp_buf` slot for every `lks` in `[0, K_real_split)`. -/
def reduceTileBlocking (Kreal : Nat) (buf : Nat → Int) : Int :=
  (List.range Kreal).foldl (fun acc lks => acc + buf lks) 0

/-- The concrete input of the C4 counterexample: `num_threads = 5`,
plain shape `M = 32, K = 64, N = 528`, f32 element sizes, 1 MiB L2.
Since `plain_N = 528 > 512`, the constructor (lines 242-252) derives
`iim_block_ = suggest_aligned_block(32, 16) = 16` and
`iin_block_ = iik_block_ = 16`, matching the block sizes here. -/
def mmInput4 : MMInputs := ⟨5, 16, 16, 16, false, 32, 64, 528, 4, 4, 1048576⟩

/-- The concrete input of the C3 counterexample:
`num_threads = 1`, 64-wide blocks, plain shape `M = 64, K = 8192,
N = 128`. -/
def mmInput1 : MMInputs := ⟨1, 64, 64, 64, false, 64, 8192, 128, 4, 4, 1048576⟩

/-- The concrete int8 input of the C6 witness: `num_threads = 8`,
`iim = 32`, `iin = iik = 64`, plain shape `M = K = N = 256`. -/
def mmInput8 : MMInputs := ⟨8, 32, 64, 64, true, 256, 256, 256, 1, 4, 1048576⟩


/-- Concrete `generate` inputs: 2 threads, plain shape
`M = 64, K = 16, N = 64`, f32 B (no extra blocking).  The constructor
(lines 242-252) derives `iim_block_ = max(4, min(16, ceil(64/2))) = 16`
and `iin_block_ = iik_block_ = 16` for this f32 shape, matching the
block sizes here. -/
def genInput2 : GenInputs := ⟨2, 16, 16, 16, 64, 16, 64, false, false, -1⟩

/-- Concrete `generate` inputs with a large K: 4 threads, plain shape
`M = 64, K = 512, N = 64`, f32; the constructor derives 16-wide blocks
(`plain_N = 64 <= 512` and `plain_K = 512 <= 512`, so
`iim_block_ = max(4, min(16, ceil(64/4))) = 16`). -/
def genInputK : GenInputs := ⟨4, 16, 16, 16, 64, 512, 64, false, false, -1⟩

/-- The all-ones configuration (every split and sub-block 1). -/
def cfgOne : MMCfg := ⟨1, 1, 1, 1, 1, 0⟩

/-- A configuration whose `M_sub_block = 5` exceeds the single
per-thread M block. -/
def cfgBad5 : MMCfg := ⟨1, 1, 5, 1, 1, 0⟩

/-- A configuration splitting K twice: `M_split = 2, N_split = 1` on 4
threads gives `K_split_num = 2`. -/
def cfgK : MMCfg := ⟨2, 1, 1, 1, 1, 0⟩


/-! ## Arithmetic facts about `ceilDiv` and balance211 -/

theorem ceilDiv_eq (n team : Nat) (ht : 0 < team) :
    ceilDiv n team = n / team + (if n % team = 0 then 0 else 1) := by
  have hdm := Nat.div_add_mod n team
  have hml := Nat.mod_lt n ht
  set q := n / team with hq
  set r := n % team with hr
  by_cases h0 : r = 0
  · have hn : n + team - 1 = (team - 1) + team * q := by omega
    rw [ceilDiv, hn, Nat.add_mul_div_left _ _ ht, Nat.div_eq_of_lt (by omega)]
    simp [h0]
  · have hmulsucc : team * (q + 1) = team * q + team := Nat.mul_succ team q
    have hn : n + team - 1 = (r - 1) + team * (q + 1) := by omega
    rw [ceilDiv, hn, Nat.add_mul_div_left _ _ ht, Nat.div_eq_of_lt (by omega)]
    simp [h0]

theorem balN1_mul_bounds (n team : Nat) (ht : 0 < team) :
    n ≤ balN1 n team * team ∧ balN1 n team * team < n + team := by
  have hdm := Nat.div_add_mod (n + team - 1) team
  have hml := Nat.mod_lt (n + team - 1) ht
  have hc : balN1 n team * team = team * ((n + team - 1) / team) := by
    rw [balN1, ceilDiv, Nat.mul_comm]
  omega

theorem balT1_le_team (n team : Nat) (ht : 0 < team) :
    balT1 n team ≤ team := by
  have h := balN1_mul_bounds n team ht
  have hsub : balN2 n team * team = balN1 n team * team - team := by
    rw [balN2, Nat.sub_mul, Nat.one_mul]
  rw [balT1]
  omega

theorem balStart_zero (n team : Nat) : balStart n team 0 = 0 := by
  simp [balStart]

theorem balStart_succ (n team i : Nat) :
    balStart n team (i + 1) = balStart n team i + balLen n team i := by
  rcases Nat.lt_trichotomy i (balT1 n team) with hlt | heq | hgt
  · by_cases hle : i + 1 ≤ balT1 n team
    · simp only [balStart, balLen, if_pos hle, if_pos (Nat.le_of_lt hlt), if_pos hlt]
      rw [Nat.succ_mul]
    · -- i < T1 but i + 1 > T1 : impossible since i + 1 ≤ T1 iff i < T1
      exact absurd hlt (by omega)
  · simp only [balStart, balLen]
    rw [if_neg (by omega), if_pos (by omega), if_neg (by omega)]
    have h1 : i + 1 - balT1 n team = 1 := by omega
    rw [h1, Nat.one_mul, heq]
  · simp only [balStart, balLen]
    rw [if_neg (by omega), if_neg (by omega), if_neg (by omega)]
    have h1 : i + 1 - balT1 n team = (i - balT1 n team) + 1 := by omega
    rw [h1, Nat.succ_mul]
    omega

theorem balStart_team (n team : Nat) (ht : 0 < team) :
    balStart n team team = n := by
  have hb := balN1_mul_bounds n team ht
  have hT : balT1 n team ≤ team := balT1_le_team n team ht
  simp only [balStart, balT1, balN2] at hT ⊢
  set n1 := balN1 n team with hn1def
  have hsub : (n1 - 1) * team = n1 * team - team := by
    rw [Nat.sub_mul, Nat.one_mul]
  split_ifs with hc
  · rw [Nat.mul_comm]
    omega
  · by_cases h10 : n1 = 0
    · have hz : n1 * team = 0 := by rw [h10]; exact Nat.zero_mul team
      have hn0 : n = 0 := by omega
      rw [h10, hn0]
      simp
    · set T1 := n - (n1 - 1) * team with hT1def
      have e1 : T1 * n1 = T1 * (n1 - 1) + T1 := by
        calc T1 * n1 = T1 * ((n1 - 1) + 1) := by
              rw [Nat.sub_add_cancel (by omega)]
          _ = T1 * (n1 - 1) + T1 := Nat.mul_succ _ _
      have e2 : (team - T1) * (n1 - 1)
          = team * (n1 - 1) - T1 * (n1 - 1) := Nat.sub_mul _ _ _
      have e3 : T1 * (n1 - 1) ≤ team * (n1 - 1) :=
        Nat.mul_le_mul_right _ (by omega)
      have e4 : team * (n1 - 1) = (n1 - 1) * team := Nat.mul_comm _ _
      omega

/-! ## Generic facts about consecutive chains of intervals -/

theorem chain_mono (g : Nat → Nat) (k : Nat)
    (h : ∀ i, i < k → g i ≤ g (i + 1)) :
    ∀ j, j ≤ k → g 0 ≤ g j := by
  intro j hj
  induction j with
  | zero => exact Nat.le_refl _
  | succ j ih =>
    exact Nat.le_trans (ih (by omega)) (h j (by omega))

theorem sum_range_of_chain (f g : Nat → Nat) (k : Nat)
    (h : ∀ i, i < k → g (i + 1) = g i + f i) :
    g 0 + ((List.range k).map f).sum = g k := by
  induction k with
  | zero => simp
  | succ k ih =>
    rw [List.range_succ, List.map_append, List.sum_append]
    have hk := h k (by omega)
    have := ih (fun i hi => h i (by omega))
    simp only [List.map_cons, List.map_nil, List.sum_cons, List.sum_nil]
    omega

theorem chain_cover_count (g : Nat → Nat) (k x : Nat)
    (h : ∀ i, i < k → g i ≤ g (i + 1)) :
    ((List.range k).map
        (fun i => if g i ≤ x ∧ x < g (i + 1) then 1 else 0)).sum
      = if g 0 ≤ x ∧ x < g k then 1 else 0 := by
  induction k with
  | zero =>
    simp only [List.range_zero, List.map_nil, List.sum_nil]
    rw [if_neg (by omega)]
  | succ k ih =>
    rw [List.range_succ, List.map_append, List.sum_append]
    have hmono := chain_mono g k (fun i hi => h i (by omega))
    have h0k : g 0 ≤ g k := hmono k (by omega)
    have hkk : g k ≤ g (k + 1) := h k (by omega)
    rw [ih (fun i hi => h i (by omega))]
    simp only [List.map_cons, List.map_nil, List.sum_cons, List.sum_nil]
    split_ifs <;> omega

/-! ## balance211 partition facts -/

theorem bal_sum_len (n team : Nat) (ht : 0 < team) :
    ((List.range team).map (balLen n team)).sum = n := by
  have := sum_range_of_chain (balLen n team) (balStart n team) team
    (fun i _ => balStart_succ n team i)
  rw [balStart_zero, Nat.zero_add] at this
  rw [this, balStart_team n team ht]

theorem bal_cover_count (n team x : Nat) (ht : 0 < team) :
    ((List.range team).map
        (fun i => if balStart n team i ≤ x ∧
            x < balStart n team i + balLen n team i then 1 else 0)).sum
      = if x < n then 1 else 0 := by
  have hcongr : ((List.range team).map
      (fun i => if balStart n team i ≤ x ∧
          x < balStart n team i + balLen n team i then 1 else 0))
      = ((List.range team).map
      (fun i => if balStart n team i ≤ x ∧
          x < balStart n team (i + 1) then 1 else 0)) := by
    apply List.map_congr_left
    intro i hi
    rw [balStart_succ]
  rw [hcongr,
    chain_cover_count (balStart n team) team x
      (fun i _ => by rw [balStart_succ]; omega),
    balStart_zero, balStart_team n team ht]
  simp

/-! ## Rotation facts -/

theorem rotIdx_lt (c tid o : Nat) (hc : 0 < c) : rotIdx c tid o < c :=
  Nat.mod_lt _ hc

theorem rotIdx_injOn (c tid : Nat) :
    ∀ a, a < c → ∀ b, b < c → rotIdx c tid a = rotIdx c tid b → a = b := by
  intro a ha b hb h
  have h2 : a % c = b % c :=
    Nat.ModEq.add_right_cancel' tid (h : (a + tid) % c = (b + tid) % c)
  rwa [Nat.mod_eq_of_lt ha, Nat.mod_eq_of_lt hb] at h2

theorem rotIdx_image (c tid : Nat) (hc : 0 < c) :
    (Finset.range c).image (rotIdx c tid) = Finset.range c := by
  apply Finset.eq_of_subset_of_card_le
  · intro x hx
    rcases Finset.mem_image.mp hx with ⟨o, _, rfl⟩
    exact Finset.mem_range.mpr (rotIdx_lt c tid o hc)
  · rw [Finset.card_image_of_injOn]
    intro a ha b hb h
    exact rotIdx_injOn c tid a (Finset.mem_range.mp ha) b
      (Finset.mem_range.mp hb) h

/-- Each value in `[start, start+len)` is visited exactly once by the
rotated inner loop, and nothing outside it is visited. -/
theorem countN_rotChunk (s len tid x : Nat) :
    countN (rotChunk s len tid) x = if s ≤ x ∧ x < s + len then 1 else 0 := by
  by_cases hlen : len = 0
  · subst hlen
    rw [if_neg (by omega)]
    rfl
  · have hc : 0 < len := by omega
    rw [countN, rotChunk, List.countP_map]
    by_cases hx : s ≤ x ∧ x < s + len
    · obtain ⟨hx1, hx2⟩ := hx
      set j := x - s with hj
      have hjlt : j < len := by omega
      set o₀ := (j + (len - tid % len)) % len with ho₀
      have ho₀lt : o₀ < len := Nat.mod_lt _ hc
      have hdm := Nat.div_add_mod tid len
      have hmlt := Nat.mod_lt tid hc
      have hrot : rotIdx len tid o₀ = j := by
        rw [rotIdx, ho₀, Nat.mod_add_mod]
        have hstep : j + (len - tid % len) + tid
            = j + len * (tid / len + 1) := by
          have hms : len * (tid / len + 1) = len * (tid / len) + len := by
            rw [Nat.mul_add, Nat.mul_one]
          omega
        rw [hstep, Nat.add_mul_mod_self_left]
        exact Nat.mod_eq_of_lt hjlt
      have hcongr : ∀ o ∈ List.range len,
          (((fun a => a == x) ∘ fun o => s + rotIdx len tid o) o
            ↔ (fun o => o == o₀) o) := by
        intro o ho
        have holt := List.mem_range.mp ho
        simp only [Function.comp_apply, beq_iff_eq]
        constructor
        · intro h
          have : rotIdx len tid o = j := by omega
          exact rotIdx_injOn len tid o holt o₀ ho₀lt (by rw [this, hrot])
        · intro h
          rw [h, hrot]
          omega
      rw [List.countP_congr hcongr, if_pos ⟨hx1, hx2⟩]
      have : List.countP (fun o => o == o₀) (List.range len)
          = (List.range len).count o₀ := (List.count_eq_countP o₀ _).symm
      rw [this,
        List.count_eq_one_of_mem (List.nodup_range len)
          (List.mem_range.mpr ho₀lt)]
    · rw [if_neg hx, List.countP_eq_zero]
      intro o ho
      have holt := List.mem_range.mp ho
      have := rotIdx_lt len tid o hc
      simp only [Function.comp_apply, beq_iff_eq]
      omega

/-- `countP` distributes over `flatMap` as a sum. -/
theorem countP_flatMap_sum (p : β → Bool) (l : List α) (f : α → List β) :
    (l.flatMap f).countP p = (l.map (fun a => (f a).countP p)).sum := by
  induction l with
  | nil => rfl
  | cons a l ih => simp [List.flatMap_cons, ih]

/-- Counting a pair in the product of two lists multiplies the counts. -/
theorem countPair_product (lm ln : List Nat) (x y : Nat) :
    countPair (lm.flatMap (fun a => ln.map (fun b => (a, b)))) x y
      = countN lm x * countN ln y := by
  induction lm with
  | nil => simp [countPair, countN]
  | cons a lm ih =>
    have hmap : countPair (ln.map (fun b => (a, b))) x y
        = if a = x then countN ln y else 0 := by
      rw [countPair, List.countP_map]
      by_cases hax : a = x
      · subst hax
        rw [if_pos rfl, countN]
        apply List.countP_congr
        intro b _
        simp
      · rw [if_neg hax, List.countP_eq_zero]
        intro b _
        simp [hax]
    have hcons : countN (a :: lm) x = countN lm x + if a = x then 1 else 0 := by
      rw [countN, List.countP_cons, ← countN]
      congr 1
      simp
    rw [List.flatMap_cons, countPair, List.countP_append, ← countPair,
      ← countPair, ih, hmap, hcons]
    by_cases hax : a = x
    · rw [if_pos hax, if_pos hax]
      ring
    · rw [if_neg hax, if_neg hax]
      ring

/-! ## Fusion-anchor emission of `single_thread_matmul_call` (lines 289-499)

Coordinates are in block units relative to the thread's own origin
(`m_idx`/`n_idx`); `Mb`/`Nb` are the thread's M/N extents in blocks
(`M_single_thr_size / iim_block_` etc.). -/

theorem countPair_perBlockAnchors (Mb Nb Msub Nsub tid x y : Nat)
    (hm : 0 < Msub) (hn : 0 < Nsub) :
    countPair (perBlockAnchors Mb Nb Msub Nsub tid) x y
      = if x < Mb ∧ y < Nb then 1 else 0 := by
  rw [perBlockAnchors, countPair, countP_flatMap_sum]
  have h1 : (List.range Msub).map (fun mb =>
        List.countP (fun p => p.1 == x && p.2 == y)
          ((List.range Nsub).flatMap (fun nb =>
            (rotChunk (balStart Mb Msub mb) (balLen Mb Msub mb) tid).flatMap
              (fun mi =>
                (rotChunk (balStart Nb Nsub nb) (balLen Nb Nsub nb)
                    tid).map (fun ni => (mi, ni))))))
      = (List.range Msub).map (fun mb =>
          (if balStart Mb Msub mb ≤ x ∧
              x < balStart Mb Msub mb + balLen Mb Msub mb then 1 else 0)
            * (if y < Nb then 1 else 0)) := by
    apply List.map_congr_left
    intro mb _
    rw [countP_flatMap_sum]
    have h2 : (List.range Nsub).map (fun nb =>
          List.countP (fun p => p.1 == x && p.2 == y)
            ((rotChunk (balStart Mb Msub mb) (balLen Mb Msub mb)
                tid).flatMap (fun mi =>
              (rotChunk (balStart Nb Nsub nb) (balLen Nb Nsub nb)
                  tid).map (fun ni => (mi, ni)))))
        = (List.range Nsub).map (fun nb =>
            (if balStart Mb Msub mb ≤ x ∧
                x < balStart Mb Msub mb + balLen Mb Msub mb then 1 else 0)
              * (if balStart Nb Nsub nb ≤ y ∧
                  y < balStart Nb Nsub nb + balLen Nb Nsub nb then 1
                else 0)) := by
      apply List.map_congr_left
      intro nb _
      rw [← countPair, countPair_product, countN_rotChunk, countN_rotChunk]
    rw [h2, List.sum_map_mul_left, bal_cover_count Nb Nsub y hn]
  rw [h1, List.sum_map_mul_right, bal_cover_count Mb Msub x hm]
  split_ifs with h1 h2 h3 <;> omega

/-- The anchor length computed by the code coincides with the balance211
chunk length actually looped over (lines 293-298). -/
theorem sixteenLenBlk_eq_balLen (n team idx : Nat) (ht : 0 < team)
    (hidx : idx < team) :
    sixteenLenBlk n team (decide (idx < balT1 n team))
      = balLen n team idx := by
  have hce := ceilDiv_eq n team ht
  have hdm := Nat.div_add_mod n team
  by_cases hdvd : n % team = 0
  · rw [sixteenLenBlk, if_pos hdvd]
    by_cases hq : n / team = 0
    · have hmz : team * (n / team) = 0 := by rw [hq, Nat.mul_zero]
      have hn0 : n = 0 := by omega
      have h1 : balN1 0 team = 0 := by
        rw [balN1, ceilDiv]
        exact Nat.div_eq_of_lt (by omega)
      simp [hn0, balLen, balT1, balN2, h1, hq]
    · have hn1 : balN1 n team = n / team := by
        rw [balN1, hce, if_pos hdvd, Nat.add_zero]
      have hT1 : balT1 n team = team := by
        rw [balT1, balN2, hn1]
        have hsm : (n / team - 1) * team = (n / team) * team - team := by
          rw [Nat.sub_mul, Nat.one_mul]
        have hc2 : (n / team) * team = team * (n / team) := Nat.mul_comm _ _
        have hge : team ≤ team * (n / team) :=
          Nat.le_mul_of_pos_right team (by omega)
        omega
      rw [balLen, hT1, if_pos hidx, hn1]
  · rw [sixteenLenBlk, if_neg hdvd]
    have hn1 : balN1 n team = n / team + 1 := by
      rw [balN1, hce, if_neg hdvd]
    rw [balLen]
    by_cases hbig : idx < balT1 n team
    · rw [if_pos hbig, hn1]
      simp [hbig]
    · rw [if_neg hbig, balN2, hn1]
      simp [hbig]

theorem countP_eq_sum_map (q : α → Bool) (l : List α) :
    l.countP q = (l.map (fun a => if q a then 1 else 0)).sum := by
  induction l with
  | nil => rfl
  | cons a l ih =>
    rw [List.countP_cons, List.map_cons, List.sum_cons, ih]
    cases h : q a
    · simp [h]
    · simp [h]
      omega

theorem if_and_mul (P Q : Prop) [Decidable P] [Decidable Q] :
    (if P ∧ Q then 1 else 0) = (if P then 1 else 0) * (if Q then 1 else 0) := by
  split_ifs <;> simp_all

/-- Blocked-format sub-block anchors cover every block of the thread's
region exactly once. -/
theorem countRect_subAnchorsBlk (Mb Nb Msub Nsub x y : Nat)
    (hm : 0 < Msub) (hn : 0 < Nsub) :
    (subAnchorsBlk Mb Nb Msub Nsub).countP (fun r => inRect r x y)
      = if x < Mb ∧ y < Nb then 1 else 0 := by
  rw [subAnchorsBlk, countP_flatMap_sum]
  have h1 : (List.range Msub).map (fun mb =>
        List.countP (fun r => inRect r x y)
          ((List.range Nsub).map (fun nb =>
            (⟨balStart Mb Msub mb,
              sixteenLenBlk Mb Msub (decide (mb < balT1 Mb Msub)),
              balStart Nb Nsub nb,
              sixteenLenBlk Nb Nsub (decide (nb < balT1 Nb Nsub))⟩ : Rect))))
      = (List.range Msub).map (fun mb =>
          (if balStart Mb Msub mb ≤ x ∧
              x < balStart Mb Msub mb + balLen Mb Msub mb then 1 else 0)
            * (if y < Nb then 1 else 0)) := by
    apply List.map_congr_left
    intro mb hmb
    have hmblt := List.mem_range.mp hmb
    rw [List.countP_map, countP_eq_sum_map]
    have h2 : (List.range Nsub).map (fun nb =>
          if ((fun r => inRect r x y) ∘ fun nb =>
              (⟨balStart Mb Msub mb,
                sixteenLenBlk Mb Msub (decide (mb < balT1 Mb Msub)),
                balStart Nb Nsub nb,
                sixteenLenBlk Nb Nsub (decide (nb < balT1 Nb Nsub))⟩
                : Rect)) nb then 1 else 0)
        = (List.range Nsub).map (fun nb =>
            (if balStart Mb Msub mb ≤ x ∧
                x < balStart Mb Msub mb + balLen Mb Msub mb then 1 else 0)
              * (if balStart Nb Nsub nb ≤ y ∧
                  y < balStart Nb Nsub nb + balLen Nb Nsub nb then 1
                else 0)) := by
      apply List.map_congr_left
      intro nb hnb
      have hnblt := List.mem_range.mp hnb
      simp only [Function.comp_apply, inRect, Bool.and_eq_true,
        decide_eq_true_eq]
      rw [sixteenLenBlk_eq_balLen Mb Msub mb hm hmblt,
        sixteenLenBlk_eq_balLen Nb Nsub nb hn hnblt]
      rw [← if_and_mul]
      apply if_congr _ rfl rfl
      tauto
    rw [h2, List.sum_map_mul_left, bal_cover_count Nb Nsub y hn]
  rw [h1, List.sum_map_mul_right, bal_cover_count Mb Msub x hm,
    ← if_and_mul]

/-! ## Facts about `get_splits` and the cost search -/

theorem get_splits_mem {X d : Nat} (h : d ∈ get_splits X) :
    1 ≤ d ∧ d ≤ X ∧ X % d = 0 := by
  rw [get_splits] at h
  have h1 := List.mem_filter.mp h
  rcases List.mem_map.mp h1.1 with ⟨j, hj, rfl⟩
  have := List.mem_range.mp hj
  exact ⟨by omega, by omega, by simpa using h1.2⟩

theorem get_splits_nodup (X : Nat) : (get_splits X).Nodup := by
  rw [get_splits]
  exact (List.Nodup.map (fun a b h => by omega) (List.nodup_range X)).filter _

theorem one_mem_get_splits (X : Nat) (h : 1 ≤ X) : 1 ∈ get_splits X := by
  rw [get_splits]
  apply List.mem_filter.mpr
  constructor
  · exact List.mem_map.mpr ⟨0, List.mem_range.mpr (by omega), rfl⟩
  · have h1 : X % 1 = 0 := Nat.mod_one X
    simp [h1]

theorem self_mem_get_splits (X : Nat) (h : 1 ≤ X) : X ∈ get_splits X := by
  rw [get_splits]
  apply List.mem_filter.mpr
  constructor
  · refine List.mem_map.mpr ⟨X - 1, List.mem_range.mpr (by omega), ?_⟩
    omega
  · have h1 : X % X = 0 := Nat.mod_self X
    simp [h1]

theorem get_splits_length_two (X : Nat) (h : 2 ≤ X) :
    2 ≤ (get_splits X).length := by
  have hnd := get_splits_nodup X
  have hsub : ({1, X} : Finset Nat) ⊆ (get_splits X).toFinset := by
    intro z hz
    rcases Finset.mem_insert.mp hz with rfl | hz
    · exact List.mem_toFinset.mpr (one_mem_get_splits X (by omega))
    · rw [Finset.mem_singleton] at hz
      rw [hz]
      exact List.mem_toFinset.mpr (self_mem_get_splits X (by omega))
  have hcard := Finset.card_le_card hsub
  rw [Finset.card_insert_of_not_mem (by simp; omega),
    Finset.card_singleton, List.toFinset_card_of_nodup hnd] at hcard
  exact hcard

theorem get_splits_getD_mem (X k : Nat) (h : k < (get_splits X).length) :
    (get_splits X).getD k 0 ∈ get_splits X := by
  rw [List.getD_eq_getElem (get_splits X) 0 h]
  exact List.getElem_mem h

/-- Invariants preserved by the cost-search fold. -/
theorem foldl_searchStep_pred (a : MMInputs) (P : Nat → Prop) :
    ∀ (l : List Nat) (st : Nat × Option Nat), P st.1 → (∀ i ∈ l, P i) →
      P ((l.foldl (searchStep a) st).1) := by
  intro l
  induction l with
  | nil => intro st h _; exact h
  | cons i l ih =>
    intro st hst hl
    rw [List.foldl_cons]
    apply ih
    · obtain ⟨s1, s2⟩ := st
      cases s2 with
      | none => exact hl i (by simp)
      | some c =>
        simp only [searchStep]
        split_ifs
        · exact hl i (by simp)
        · exact hst
    · intro j hj
      exact hl j (List.mem_cons_of_mem _ hj)

theorem searchSplitN_bounds (a : MMInputs) (hT : 1 ≤ a.num_threads) :
    1 ≤ searchSplitN a ∧ searchSplitN a ≤ a.num_threads := by
  rw [searchSplitN]
  apply foldl_searchStep_pred a (fun x => 1 ≤ x ∧ x ≤ a.num_threads)
  · exact ⟨le_refl 1, hT⟩
  · intro i hi
    rcases List.mem_map.mp hi with ⟨j, hj, rfl⟩
    have := List.mem_range.mp hj
    omega

/-- Bounds guaranteed by `splitOverrides` (lines 128-154): both splits
stay at least 1 and their product never exceeds the thread count. -/
theorem splitOverrides_bounds (a : MMInputs) (Ms0 Ns0 Ms Ns : Nat)
    (hMs0 : 1 ≤ Ms0) (hNs0 : 1 ≤ Ns0)
    (hprod : Ms0 * Ns0 ≤ a.num_threads)
    (h : splitOverrides a Ms0 Ns0 = some (Ms, Ns)) :
    1 ≤ Ms ∧ 1 ≤ Ns ∧ Ms * Ns ≤ a.num_threads := by
  have hT : 1 ≤ a.num_threads := le_trans (Nat.mul_pos hMs0 hNs0) hprod
  simp only [splitOverrides] at h
  split_ifs at h with h1 h2 h3 h4 h5 h6
  · -- int8 small-NK override
    simp only [Option.some.injEq, Prod.mk.injEq] at h
    obtain ⟨rfl, rfl⟩ := h
    exact ⟨hT, le_refl 1, by omega⟩
  · simp only [Option.some.injEq, Prod.mk.injEq] at h
    obtain ⟨rfl, rfl⟩ := h
    exact ⟨hT, le_refl 1, by omega⟩
  · -- K large, M < N, enough divisors of Ms0
    simp only [Option.some.injEq, Prod.mk.injEq] at h
    obtain ⟨rfl, rfl⟩ := h
    have hmem := get_splits_getD_mem Ms0 1 (by omega)
    have hd := get_splits_mem hmem
    refine ⟨?_, hNs0, ?_⟩
    · exact (Nat.one_le_div_iff (by omega)).mpr hd.2.1
    · calc Ms0 / (get_splits Ms0).getD 1 0 * Ns0 ≤ Ms0 * Ns0 :=
          Nat.mul_le_mul_right _ (Nat.div_le_self _ _)
        _ ≤ a.num_threads := hprod
  · -- K large, M < N, collapse onto K split
    cases hsp : (get_splits a.num_threads)[1]? with
    | none => rw [hsp] at h; exact absurd h (by simp)
    | some p =>
      rw [hsp] at h
      simp only [Option.some.injEq, Prod.mk.injEq] at h
      obtain ⟨rfl, rfl⟩ := h
      have hmem := List.getElem?_mem hsp
      have hd := get_splits_mem hmem
      refine ⟨le_refl 1, ?_, ?_⟩
      · exact (Nat.one_le_div_iff (by omega)).mpr hd.2.1
      · rw [Nat.one_mul]
        exact Nat.div_le_self _ _
  · -- K large, M >= N, enough divisors of Ns0
    simp only [Option.some.injEq, Prod.mk.injEq] at h
    obtain ⟨rfl, rfl⟩ := h
    have hmem := get_splits_getD_mem Ns0 1 (by omega)
    have hd := get_splits_mem hmem
    refine ⟨hMs0, ?_, ?_⟩
    · exact (Nat.one_le_div_iff (by omega)).mpr hd.2.1
    · calc Ms0 * (Ns0 / (get_splits Ns0).getD 1 0) ≤ Ms0 * Ns0 :=
          Nat.mul_le_mul_left _ (Nat.div_le_self _ _)
        _ ≤ a.num_threads := hprod
  · simp only [Option.some.injEq, Prod.mk.injEq] at h
    obtain ⟨rfl, rfl⟩ := h
    exact ⟨hMs0, hNs0, hprod⟩
  · simp only [Option.some.injEq, Prod.mk.injEq] at h
    obtain ⟨rfl, rfl⟩ := h
    exact ⟨hMs0, hNs0, hprod⟩

/-- Destructuring of a successful `get_default_config` run. -/
theorem getDefaultConfig_eq (a : MMInputs) (cfg : MMCfg)
    (h : getDefaultConfig a = some cfg) :
    ∃ Ms Ns, splitOverrides a (a.num_threads / searchSplitN a)
        (searchSplitN a) = some (Ms, Ns) ∧
      cfg = ⟨Ms, Ns, (subBlocksOf a Ms Ns).1, (subBlocksOf a Ms Ns).2.1,
        (subBlocksOf a Ms Ns).2.2, 0⟩ := by
  simp only [getDefaultConfig] at h
  cases hso : splitOverrides a (a.num_threads / searchSplitN a)
      (searchSplitN a) with
  | none => rw [hso] at h; simp at h
  | some p =>
    obtain ⟨Ms, Ns⟩ := p
    rw [hso] at h
    exact ⟨Ms, Ns, rfl, (Option.some.inj h).symm⟩

/-- `get_default_config` always returns when `num_threads >= 2`: every
override branch produces a value and `get_splits(num_threads).at(1)`
is in range. -/
theorem getDefaultConfig_total (a : MMInputs) (hT : 2 ≤ a.num_threads) :
    (getDefaultConfig a).isSome = true := by
  simp only [getDefaultConfig]
  cases hso : splitOverrides a (a.num_threads / searchSplitN a)
      (searchSplitN a) with
  | some p => obtain ⟨Ms, Ns⟩ := p; simp
  | none =>
    exfalso
    simp only [splitOverrides] at hso
    split_ifs at hso with h1 h2 h3 h4 h5
    cases hsp : (get_splits a.num_threads)[1]? with
    | some k => rw [hsp] at hso; simp at hso
    | none =>
      have hlen := get_splits_length_two a.num_threads hT
      rw [List.getElem?_eq_none_iff] at hsp
      omega

/-- The sub-block triple is always at least `(1, 1, 1)` and its K
component is 1 below the cache threshold (lines 155-190). -/
theorem subBlocksOf_bounds (a : MMInputs) (Ms Ns : Nat)
    (hA1 : 1 ≤ a.sizeofdtypeA) (hA2 : a.sizeofdtypeA ≤ 2048)
    (hK : 1 ≤ a.plain_K) (hik : 1 ≤ a.iik_block) :
    1 ≤ (subBlocksOf a Ms Ns).1 ∧ 1 ≤ (subBlocksOf a Ms Ns).2.1 ∧
    1 ≤ (subBlocksOf a Ms Ns).2.2 ∧
    (roundedK a < singleKThreshold a Ms Ns →
      (subBlocksOf a Ms Ns).2.2 = 1) := by
  have hsK : 1 ≤ roundedK a := by
    rw [roundedK]
    have h1 : 1 ≤ ceilDiv a.plain_K a.iik_block := by
      rw [ceilDiv, Nat.one_le_div_iff (by omega)]
      omega
    exact Nat.mul_pos h1 hik
  have hthr1 : 1 ≤ singleKThreshold a Ms Ns := by
    rw [singleKThreshold]
    split_ifs with hc
    · rw [Nat.one_le_div_iff (by omega)]; omega
    · rw [Nat.one_le_div_iff (by omega)]; omega
  simp only [subBlocksOf]
  split_ifs with hthr
  · refine ⟨le_max_left 1 _, le_max_left 1 _, ?_, ?_⟩
    · show 1 ≤ ceilDiv (roundedK a) (singleKThreshold a Ms Ns)
      rw [ceilDiv, Nat.one_le_div_iff (by omega)]
      omega
    · intro hlt
      omega
  · exact ⟨le_max_left 1 _, le_max_left 1 _, le_refl 1, fun _ => rfl⟩

theorem rotChunk_mem (s c tid a : Nat) (hc : 0 < c) :
    a ∈ rotChunk s c tid ↔ s ≤ a ∧ a < s + c := by
  constructor
  · intro h
    rcases List.mem_map.mp h with ⟨o, ho, rfl⟩
    have := rotIdx_lt c tid o hc
    omega
  · intro h
    have h1 : 0 < countN (rotChunk s c tid) a := by
      rw [countN_rotChunk, if_pos h]
      omega
    rw [countN] at h1
    rcases List.countP_pos_iff.mp h1 with ⟨b, hb, hba⟩
    have hba2 : b = a := by simpa using hba
    rwa [hba2] at hb

/-! ## Claim theorems -/

/-- C1 (amended).  Within `single_thread_matmul_call`, for every valid
sub-block configuration (`M_sub_block, N_sub_block >= 1`) and every
thread id: (a) the per-block fusion anchors emitted at the last
`k_b` iteration cover every block of the thread's assigned output
region exactly once (so by themselves they tile it with no gap and no
overlap); (b) for a blocked output format the per-sub-block anchors
(single simplified anchor in the even case, 16-way iterated anchor
otherwise) also cover every block exactly once; and (c) the
`M_blk_num` threshold that the 16-way decision tree compares `m_s`
against equals the `T1` boundary of the thread-level balance211
partition, so the tree selects exactly the thread's own partition size.
The two anchor families overlap each other by construction (each
sub-block anchor is the union of its per-block anchors), so their
combined union does not tile disjointly; see the counterexample. -/
theorem C1_anchor_tiling (Mb Nb Msub Nsub tid : Nat)
    (hm : 0 < Msub) (hn : 0 < Nsub) :
    (∀ x y, countPair (perBlockAnchors Mb Nb Msub Nsub tid) x y
        = if x < Mb ∧ y < Nb then 1 else 0) ∧
    (∀ x y, (subAnchorsBlk Mb Nb Msub Nsub).countP (fun r => inRect r x y)
        = if x < Mb ∧ y < Nb then 1 else 0) ∧
    (∀ Mblocks Msplit iim, 0 < Msplit → 0 < iim →
      MblkNum Mblocks Msplit iim = balT1 Mblocks Msplit) := by
  refine ⟨fun x y => countPair_perBlockAnchors Mb Nb Msub Nsub tid x y hm hn,
    fun x y => countRect_subAnchorsBlk Mb Nb Msub Nsub x y hm hn,
    fun Mblocks Msplit iim hs hi => ?_⟩
  rw [MblkNum, balT1, balN2, balN1]
  have h1 : ceilDiv Mblocks Msplit * iim - iim
      = (ceilDiv Mblocks Msplit - 1) * iim := by
    rw [Nat.sub_mul, Nat.one_mul]
  have h2 : (ceilDiv Mblocks Msplit - 1) * iim * Msplit
      = (ceilDiv Mblocks Msplit - 1) * Msplit * iim := by ring
  have h3 : Mblocks * iim - (ceilDiv Mblocks Msplit - 1) * Msplit * iim
      = (Mblocks - (ceilDiv Mblocks Msplit - 1) * Msplit) * iim :=
    (Nat.sub_mul Mblocks ((ceilDiv Mblocks Msplit - 1) * Msplit) iim).symm
  rw [h1, h2, h3, Nat.mul_div_cancel _ hi]

/-- C1 witness: a concrete instantiation of the amended tiling theorem
(thread region of 3 x 2 blocks, 2 x 1 sub-blocks, thread id 5). -/
theorem C1_witness :
    0 < 2 ∧ 0 < 1 ∧
    countPair (perBlockAnchors 3 2 2 1 5) 1 0 = 1 ∧
    (subAnchorsBlk 3 2 2 1).countP (fun r => inRect r 2 1) = 1 := by
  refine ⟨by decide, by decide, ?_, ?_⟩
  · have h := (C1_anchor_tiling 3 2 2 1 5 (by decide) (by decide)).1 1 0
    simpa using h
  · have h := (C1_anchor_tiling 3 2 2 1 5 (by decide) (by decide)).2.1 2 1
    simpa using h

/-- C1 counterexample.  (i) At the concrete valid configuration
`Mb = Nb = Msub = Nsub = 1`, `tid = 0`, the combined family of
per-block and sub-block anchors covers the single output block twice:
the two anchor kinds are nested, not disjoint, so the union of all
anchors emitted during the thread's loop body does not tile the
region disjointly as claimed.  (ii) For a plain (non-blocked) output
the 16-way anchor length is computed in elements as
`M_anchor_info[p+1] / M_sub_block (+ iim)`: with
`M_anchor = 192, iim = 64, Msub = 2` the emitted big-sub-block length
is `192 / 2 + 64 = 160` elements while the loop actually covers
`balLen 3 2 0 = 2` blocks `= 128` elements, so in that format the
sub-block anchors do not even individually match the covered region. -/
theorem C1_counterexample :
    (¬ ∀ x y, (combinedAnchorsBlk 1 1 1 1 0).countP (fun r => inRect r x y)
        = if x < 1 ∧ y < 1 then 1 else 0) ∧
    sixteenLenElem 192 64 2 true = 160 ∧ balLen 3 2 0 * 64 = 128 := by
  refine ⟨fun h => ?_, by decide, by decide⟩
  have h2 := h 0 0
  revert h2
  decide

/-- C2.  `get_balance211_length(n, team, idx)` with `n1 = ceil(n/team)`,
`n2 = n1 - 1`, `T1 = n - n2*team` gives worker `idx < T1` the pair
`(idx*n1, n1)` and worker `idx >= T1` the pair
`(T1*n1 + (idx-T1)*n2, n2)`; the lengths take at most the two values
`n2` and `n1 = n2 + 1`, they sum to exactly `n` over all workers, and
the starts chain (`start 0 = 0`, `start (i+1) = start i + len i`,
`start team = n`), so the assignment is a contiguous non-overlapping
partition of `[0, n)`. -/
theorem C2_balance211_partition (n team idx : Nat)
    (hn : 0 < n) (ht : 0 < team) (_hidx : idx < team) :
    (idx < balT1 n team →
      balance211 n team idx = (idx * balN1 n team, balN1 n team)) ∧
    (balT1 n team ≤ idx →
      balance211 n team idx
        = (balT1 n team * balN1 n team
            + (idx - balT1 n team) * balN2 n team, balN2 n team)) ∧
    balN1 n team = balN2 n team + 1 ∧
    (balLen n team idx = balN1 n team ∨ balLen n team idx = balN2 n team) ∧
    ((List.range team).map (balLen n team)).sum = n ∧
    balStart n team 0 = 0 ∧
    (∀ i, i < team →
      balStart n team (i + 1) = balStart n team i + balLen n team i) ∧
    balStart n team team = n := by
  have hn1 : 1 ≤ balN1 n team := by
    have hb := (balN1_mul_bounds n team ht).1
    by_contra hcon
    have h0 : balN1 n team = 0 := by omega
    rw [h0, Nat.zero_mul] at hb
    omega
  refine ⟨?_, ?_, ?_, ?_, bal_sum_len n team ht, balStart_zero n team,
    fun i _ => balStart_succ n team i, balStart_team n team ht⟩
  · intro h
    rw [balance211, balStart, balLen, if_pos (by omega), if_pos h]
  · intro h
    by_cases he : idx = balT1 n team
    · rw [balance211, balStart, balLen, if_pos (by omega), if_neg (by omega),
        he]
      have : balT1 n team - balT1 n team = 0 := by omega
      rw [this, Nat.zero_mul, Nat.add_zero]
    · rw [balance211, balStart, balLen, if_neg (by omega), if_neg (by omega)]
  · rw [balN2]
    omega
  · rw [balLen]
    split_ifs
    · exact Or.inl rfl
    · exact Or.inr rfl

/-- C2 witness: `n = 10, team = 3`: worker 1 gets `(4, 3)` and the three
lengths sum to 10. -/
theorem C2_witness :
    0 < 10 ∧ 0 < 3 ∧ 1 < 3 ∧
    ((List.range 3).map (balLen 10 3)).sum = 10 :=
  ⟨by decide, by decide, by decide,
    (C2_balance211_partition 10 3 1 (by decide) (by decide)
      (by decide)).2.2.2.2.1⟩

/-- C9.  For every inner block count `c > 0` and every thread id, the
rotation `o -> (o + tid) % c` of lines 304-309 permutes `[0, c)`: its
image on `range c` is `range c` and it is injective there, so the set
of `m_start_idx`/`n_start_idx` block positions visited in a sub-block
chunk is independent of the thread id; only the visiting order changes. -/
theorem C9_rotation_bijection (c tid s : Nat) (hc : 0 < c) :
    (Finset.range c).image (rotIdx c tid) = Finset.range c ∧
    (∀ a, a < c → ∀ b, b < c → rotIdx c tid a = rotIdx c tid b → a = b) ∧
    (rotChunk s c tid).toFinset = (rotChunk s c 0).toFinset := by
  refine ⟨rotIdx_image c tid hc, rotIdx_injOn c tid, ?_⟩
  ext a
  simp only [List.mem_toFinset]
  rw [rotChunk_mem s c tid a hc, rotChunk_mem s c 0 a hc]

/-- C9 witness: rotation by thread id 7 on 4 blocks starting at block
10. -/
theorem C9_witness :
    0 < 4 ∧ (Finset.range 4).image (rotIdx 4 7) = Finset.range 4 ∧
    (rotChunk 10 4 7).toFinset = (rotChunk 10 4 0).toFinset := by
  have h := C9_rotation_bijection 4 7 10 (by decide)
  exact ⟨by decide, h.1, h.2.2⟩

/-- C3 (amended).  Whenever `get_default_config` returns a Config — it
always does when `num_threads >= 2`, and the only failing case is the
`num_threads = 1`, `K >= 8192`, `M < N` corner where
`get_splits(num_threads).at(1)` throws — the returned Config satisfies
`M_split_num >= 1`, `N_split_num >= 1` and
`M_split_num * N_split_num <= num_threads`.  As a pure function of its
inputs the model is deterministic by construction. -/
theorem C3_config_bounds (a : MMInputs) (hT : 1 ≤ a.num_threads) :
    (∀ cfg, getDefaultConfig a = some cfg →
      1 ≤ cfg.M_split_num ∧ 1 ≤ cfg.N_split_num ∧
        cfg.M_split_num * cfg.N_split_num ≤ a.num_threads) ∧
    (2 ≤ a.num_threads → (getDefaultConfig a).isSome = true) := by
  refine ⟨?_, getDefaultConfig_total a⟩
  intro cfg h
  obtain ⟨Ms, Ns, hso, rfl⟩ := getDefaultConfig_eq a cfg h
  have hs := searchSplitN_bounds a hT
  have hMs0 : 1 ≤ a.num_threads / searchSplitN a :=
    (Nat.one_le_div_iff (by omega)).mpr hs.2
  have hprod : a.num_threads / searchSplitN a * searchSplitN a
      ≤ a.num_threads := Nat.div_mul_le_self _ _
  exact splitOverrides_bounds a _ _ Ms Ns hMs0 hs.1 hprod hso

/-- C3 witness: on the concrete input `mmInput4` the function returns
`(M_split, N_split) = (2, 2)` with `2 >= 1`, `2 >= 1`, `2 * 2 <= 5`. -/
theorem C3_witness :
    1 ≤ mmInput4.num_threads ∧
    (1 ≤ (2 : Nat) ∧ 1 ≤ (2 : Nat) ∧ 2 * 2 ≤ mmInput4.num_threads) :=
  ⟨by decide,
    (C3_config_bounds mmInput4 (by decide)).1 ⟨2, 2, 1, 1, 1, 0⟩ (by decide)⟩

/-- C3 counterexample: at `num_threads = 1` with rounded `K = 8192` and
`M = 64 < N = 128` the function reaches `get_splits(1).at(1)`, which is
out of range, and returns no Config at all — so "for every thread
count ... returns a Config" fails as stated. -/
theorem C3_counterexample : getDefaultConfig mmInput1 = none := by decide

/-- C4 (amended).  The search loop of lines 107-125 evaluates every
candidate `i` in `[1, num_threads]`, not only the divisors of
`num_threads`; the selected `split_n` is therefore not always a
divisor.  The returned pair always satisfies
`M_split_num * N_split_num = (num_threads / split_n) * split_n
<= num_threads`, with equality exactly when the selected candidate
divides `num_threads`. -/
theorem C4_search_divisor (a : MMInputs) (hT : 1 ≤ a.num_threads) :
    1 ≤ searchSplitN a ∧ searchSplitN a ≤ a.num_threads ∧
    a.num_threads / searchSplitN a * searchSplitN a ≤ a.num_threads ∧
    (a.num_threads / searchSplitN a * searchSplitN a = a.num_threads
      ↔ searchSplitN a ∣ a.num_threads) := by
  have hs := searchSplitN_bounds a hT
  refine ⟨hs.1, hs.2, Nat.div_mul_le_self _ _, ?_, ?_⟩
  · intro h
    refine ⟨a.num_threads / searchSplitN a, ?_⟩
    rw [Nat.mul_comm]
    exact h.symm
  · intro h
    exact Nat.div_mul_cancel h

/-- C4 witness: the amended statement instantiated at `mmInput4`. -/
theorem C4_witness :
    1 ≤ mmInput4.num_threads ∧
    mmInput4.num_threads / searchSplitN mmInput4 * searchSplitN mmInput4
      ≤ mmInput4.num_threads :=
  ⟨by decide, (C4_search_divisor mmInput4 (by decide)).2.2.1⟩

/-- C4 counterexample: at `mmInput4` (`num_threads = 5`, `M = 32`,
`N = 528`, `K = 64`, f32, constructor-derived 16-wide blocks) the cost
has its minimum at `i = 2` (cost 10725 versus 31939, 18691, 14762,
12538 for `i = 1, 3, 4, 5`), and 2 does not divide 5; no override
fires (`N = 528 > 192`, `K = 64 < 8192`, not int8), so the returned
Config has `M_split_num * N_split_num = 2 * 2 = 4 /= 5`: the search is
not restricted to divisors and the no-override product equality
fails. -/
theorem C4_counterexample :
    searchSplitN mmInput4 = 2 ∧ ¬(2 ∣ 5) ∧
    getDefaultConfig mmInput4 = some ⟨2, 2, 1, 1, 1, 0⟩ ∧
    mmInput4.is_int8 = false ∧
    ¬(roundedN mmInput4 ≤ 192 ∧ roundedK mmInput4 ≤ 192) ∧
    roundedK mmInput4 < 8192 ∧
    (2 : Nat) * 2 ≠ mmInput4.num_threads := by
  refine ⟨by decide, by decide, by decide, by decide, ?_, by decide, by decide⟩
  decide

/-- C6.  For an int8-like A dtype with rounded `N <= 512` and rounded
`K <= 512`, `get_default_config` always returns, and the returned
Config has `M_split_num = num_threads` and `N_split_num = 1`
regardless of the cost-search result (lines 128-131). -/
theorem C6_int8_override (a : MMInputs) (_hT : 1 ≤ a.num_threads)
    (h8 : a.is_int8 = true) (hN : roundedN a ≤ 512) (hK : roundedK a ≤ 512) :
    (getDefaultConfig a).isSome = true ∧
    ∀ cfg, getDefaultConfig a = some cfg →
      cfg.M_split_num = a.num_threads ∧ cfg.N_split_num = 1 := by
  have hso : splitOverrides a (a.num_threads / searchSplitN a)
      (searchSplitN a) = some (a.num_threads, 1) := by
    simp only [splitOverrides]
    rw [if_pos ⟨h8, hN, hK⟩]
  constructor
  · simp only [getDefaultConfig]
    rw [hso]
    rfl
  · intro cfg h
    obtain ⟨Ms, Ns, hso2, rfl⟩ := getDefaultConfig_eq a cfg h
    rw [hso] at hso2
    simp only [Option.some.injEq, Prod.mk.injEq] at hso2
    exact ⟨hso2.1.symm, hso2.2.symm⟩

/-- C6 witness: int8, `M = K = N = 256`, 8 threads: the override forces
`(M_split, N_split) = (8, 1)`. -/
theorem C6_witness :
    1 ≤ mmInput8.num_threads ∧ mmInput8.is_int8 = true ∧
    roundedN mmInput8 ≤ 512 ∧ roundedK mmInput8 ≤ 512 ∧
    ((8 : Nat) = mmInput8.num_threads ∧ (1 : Nat) = 1) :=
  ⟨by decide, by decide, by decide, by decide,
    (C6_int8_override mmInput8 (by decide) (by decide) (by decide)
      (by decide)).2 ⟨8, 1, 1, 1, 1, 0⟩ (by decide)⟩

/-- C7.  Every Config returned by `get_default_config` has
`M_sub_block >= 1`, `N_sub_block >= 1` and `K_sub_block >= 1` (the
`std::max(1, ...)` clamps and the ceiling division of lines 166-190),
and `K_sub_block = 1` whenever `K` is below the cache threshold
`single_K_threshold = (2048 or 4096) / sizeof(A)` — 2048 when
`single_M * single_N * sizeof(A)` fits L2, else 4096. -/
theorem C7_subblock_bounds (a : MMInputs) (cfg : MMCfg)
    (hA1 : 1 ≤ a.sizeofdtypeA) (hA2 : a.sizeofdtypeA ≤ 2048)
    (hK : 1 ≤ a.plain_K) (hik : 1 ≤ a.iik_block)
    (h : getDefaultConfig a = some cfg) :
    1 ≤ cfg.M_sub_block ∧ 1 ≤ cfg.N_sub_block ∧ 1 ≤ cfg.K_sub_block ∧
    (roundedK a < singleKThreshold a cfg.M_split_num cfg.N_split_num →
      cfg.K_sub_block = 1) := by
  obtain ⟨Ms, Ns, hso, rfl⟩ := getDefaultConfig_eq a cfg h
  exact subBlocksOf_bounds a Ms Ns hA1 hA2 hK hik

/-- C7 witness: the sub-block bounds at the concrete int8 input. -/
theorem C7_witness :
    1 ≤ mmInput8.sizeofdtypeA ∧ mmInput8.sizeofdtypeA ≤ 2048 ∧
    1 ≤ mmInput8.plain_K ∧ 1 ≤ mmInput8.iik_block ∧
    (1 ≤ (1 : Nat) ∧ 1 ≤ (1 : Nat) ∧ 1 ≤ (1 : Nat) ∧
      (roundedK mmInput8 < singleKThreshold mmInput8 8 1 →
        (1 : Nat) = 1)) :=
  ⟨by decide, by decide, by decide, by decide,
    C7_subblock_bounds mmInput8 ⟨8, 1, 1, 1, 1, 0⟩ (by decide) (by decide)
      (by decide) (by decide) (by decide)⟩

/-- C10.  With rounded `K >= 8192` and `M < N` (and `M_split_num`
having at most two divisors, so the shrink branch is not taken),
`get_default_config` evaluates `get_splits(num_threads).at(1)`.  That
access throws exactly when `num_threads = 1` (fewer than two
divisors): the function returns nothing there, and for every
`num_threads >= 2` it returns a Config. -/
theorem C10_second_split_access (a : MMInputs)
    (hK : 8192 ≤ roundedK a) (hMN : roundedM a < roundedN a)
    (_hsp : (get_splits (a.num_threads / searchSplitN a)).length ≤ 2) :
    (a.num_threads = 1 → getDefaultConfig a = none) ∧
    (2 ≤ a.num_threads → (getDefaultConfig a).isSome = true) := by
  refine ⟨?_, getDefaultConfig_total a⟩
  intro h1
  have hs1 : searchSplitN a = 1 := by
    rw [searchSplitN, h1]
    rfl
  simp only [getDefaultConfig, hs1, h1]
  have hso : splitOverrides a (1 / 1) 1 = none := by
    simp only [splitOverrides, h1]
    rw [if_neg (fun hc => by omega), if_neg (fun hc => by omega),
      if_pos hK, if_pos hMN, if_neg (fun hc => absurd hc.1 (by decide))]
    rfl
  rw [hso]

/-- C10 witness: the concrete crash input `mmInput1`
(`num_threads = 1`, `K = 8192`, `M = 64 < N = 128`). -/
theorem C10_witness :
    8192 ≤ roundedK mmInput1 ∧ roundedM mmInput1 < roundedN mmInput1 ∧
    (get_splits (mmInput1.num_threads / searchSplitN mmInput1)).length ≤ 2 ∧
    getDefaultConfig mmInput1 = none :=
  ⟨by decide, by decide, by decide,
    (C10_second_split_access mmInput1 (by decide) (by decide)
      (by decide)).1 (by decide)⟩

theorem foldl_add_eq_sum (buf : Nat → Int) (k : Nat) :
    (List.range k).foldl (fun acc lks => acc + buf lks) 0
      = ((List.range k).map buf).sum := by
  induction k with
  | zero => rfl
  | succ k ih =>
    rw [List.range_succ, List.foldl_append, List.map_append, List.sum_append,
      ih]
    simp

/-- C5 (amended).  The temporary reduction buffer of lines 717-730 is
allocated with `K_real_split = min(ceil(K / iik_block), K_split_num)`
slots along its leading dimension — equal to `K_split_num` exactly when
K provides at least `K_split_num` blocks — and the blocked reduction
phase (lines 766-799) initializes each output tile to zero and then
accumulates every one of the `K_real_split` allocated slots into it. -/
theorem C5_reduction_buffer (g : GenInputs) (cfg : MMCfg) (buf : Nat → Int)
    (h : KsplitNum g cfg ≤ ceilDiv (genK g) g.iik_block) :
    KrealSplit g cfg = KsplitNum g cfg ∧
    reduceTileBlocking (KrealSplit g cfg) buf
      = ((List.range (KrealSplit g cfg)).map buf).sum := by
  constructor
  · rw [KrealSplit]
    exact Nat.min_eq_right h
  · exact foldl_add_eq_sum buf _

/-- C5 witness: 4 threads, `K = 512` (32 blocks of 16),
`K_split_num = 2`: the buffer gets exactly `K_split_num` slots. -/
theorem C5_witness :
    KsplitNum genInputK cfgK ≤ ceilDiv (genK genInputK) genInputK.iik_block ∧
    KrealSplit genInputK cfgK = KsplitNum genInputK cfgK :=
  ⟨by decide,
    (C5_reduction_buffer genInputK cfgK (fun i => (i : Int)) (by decide)).1⟩

/-- C5 counterexample: with 2 threads, f32 `M = 64, K = 16, N = 64`
(constructor blocks 16, so K is a single block) and the all-ones
Config, validation passes and `K_split_num = 2 > 1`, but the buffer's
leading dimension is `K_real_split = min(1, 2) = 1`, not
`K_split_num = 2` as claimed. -/
theorem C5_counterexample :
    1 < KsplitNum genInput2 cfgOne ∧ KrealSplit genInput2 cfgOne = 1 ∧
    KrealSplit genInput2 cfgOne ≠ KsplitNum genInput2 cfgOne ∧
    generateChecks genInput2 cfgOne = .ok ⟨cfgOne, 1⟩ := by
  refine ⟨by decide, by decide, by decide, ?_⟩
  rfl

/-- C8.  `generate` fails before emitting any loop plan with one of the
"bad X_sub_block given" configuration errors if and only if some
sub-block count exceeds the per-thread block count along its axis
(`M_sub_block > M_block_size / iim_block` or
`M_sub_block > M_ib_block_size / iim_block`, and likewise for N with
`iin_block` and K with `iik_block`); on success the supplied Config is
used unchanged — it is never silently clamped. -/
theorem C8_validation_iff (g : GenInputs) (cfg : MMCfg)
    (_him : 0 < g.iim_block) (_hin : 0 < g.iin_block)
    (_hik : 0 < g.iik_block) (_hms : 0 < cfg.M_split_num)
    (_hns : 0 < cfg.N_split_num)
    (_hprod : cfg.M_split_num * cfg.N_split_num ≤ g.num_threads) :
    ((∃ e, generateChecks g cfg = .error e ∧ e ≠ .badBFormat) ↔
      (MblockSize g cfg / g.iim_block < cfg.M_sub_block ∨
        MibBlockSize g cfg / g.iim_block < cfg.M_sub_block ∨
        NblockSize g cfg / g.iin_block < cfg.N_sub_block ∨
        NibBlockSize g cfg / g.iin_block < cfg.N_sub_block ∨
        KblockSize g cfg / g.iik_block < cfg.K_sub_block ∨
        KibBlockSize g cfg / g.iik_block < cfg.K_sub_block)) ∧
    (∀ p, generateChecks g cfg = .ok p → p.cfgUsed = cfg) := by
  simp only [generateChecks]
  split_ifs with h1 h2 h3 h4
  · -- all sub-block checks pass, B format bad
    refine ⟨⟨?_, fun hrhs => by omega⟩, ?_⟩
    · rintro ⟨e, he, hne⟩
      exact absurd (Except.error.inj he).symm hne
    · intro p hp
      cases hp
  · -- all checks pass
    refine ⟨⟨?_, fun hrhs => by omega⟩, ?_⟩
    · rintro ⟨e, he, _⟩
      cases he
    · intro p hp
      rw [← Except.ok.inj hp]
  · refine ⟨⟨fun _ => by omega, fun _ => ⟨.badKSub, rfl, by decide⟩⟩, ?_⟩
    intro p hp
    cases hp
  · refine ⟨⟨fun _ => by omega, fun _ => ⟨.badNSub, rfl, by decide⟩⟩, ?_⟩
    intro p hp
    cases hp
  · refine ⟨⟨fun _ => by omega, fun _ => ⟨.badMSub, rfl, by decide⟩⟩, ?_⟩
    intro p hp
    cases hp

/-- C8 witness: `M_sub_block = 5` against 4 per-thread M blocks
triggers a configuration error. -/
theorem C8_witness :
    ∃ e, generateChecks genInput2 cfgBad5 = .error e ∧ e ≠ .badBFormat :=
  (C8_validation_iff genInput2 cfgBad5 (by decide) (by decide) (by decide)
    (by decide) (by decide) (by decide)).1.mpr (by decide)

end MMM


